import Mathlib

/-!
Verification development for the closed-loop privacy-enforcement pipeline
(From Words to Shields): planner/registry/generator, executor with bounded
retry and replanning, the video detection-tracking-prediction engine, the
audio transcription/phrase-localization engine, and the verification module.
The executable pipeline itself is not part of this repository checkout, so
every definition below is modelled from the specification's words.
-/

section WordsToShieldsDevelopment

attribute [local semireducible] Rat.ofScientific Rat.mul Rat.inv Rat.add Rat.sub

namespace WordsToShields

/-- Modelled from the spec: redaction mode of a RedactionSegment,
`mode ∈ {silence, beep}`, plus the `none` no-op test fixture used to
exercise the compliance-failure path. -/
inductive Mode where
  | silence
  | beep
  | none
deriving Repr, DecidableEq

/-- Modelled from the spec: `RedactionSegment = {start_time, end_time, mode}`,
produced by localization, consumed by the audio transform. -/
structure RedactionSegment where
  tStart : ℚ
  tEnd : ℚ
  mode : Mode
deriving Repr, DecidableEq

/-- Modelled from the spec: `TranscriptWord = {text, start_time, end_time}`,
immutable once produced by transcription. -/
structure TWord where
  text : String
  tStart : ℚ
  tEnd : ℚ
deriving Repr, DecidableEq

/-- Modelled from the spec: per-job detection statistics consumed by the
video continuity check — counts of frames where an active Track was lost
(prediction without evidence), total frames, the accumulated duration of
short gaps (< 0.5 s) and the total tracked time. -/
structure DetectionStats where
  missedFrames : Nat
  totalFrames : Nat
  shortGapTime : ℚ
  trackedTime : ℚ
deriving Repr, DecidableEq

/-- Modelled from the spec: miss ratio — fraction of frames where a Track's
position came from prediction rather than direct detection/tracking. -/
def missRatio (d : DetectionStats) : ℚ :=
  (d.missedFrames : ℚ) / (d.totalFrames : ℚ)

/-- Modelled from the spec: ratio of short gaps (< 0.5 s) to total tracked
time. -/
def shortGapRatio (d : DetectionStats) : ℚ :=
  d.shortGapTime / d.trackedTime

/-- Modelled from the spec: video continuity check — the miss ratio must be
< 10% and the ratio of short gaps to total tracked time must also be
< 10%. -/
def continuityCheck (d : DetectionStats) : Bool :=
  decide (missRatio d < 1 / 10) && decide (shortGapRatio d < 1 / 10)

/-- Phases of one offline video step, in execution order. -/
inductive VPhase where
  | detection
  | verification
  | transform
deriving Repr, DecidableEq

/-- Modelled from the spec: offline (non-live) video execution — the whole
input is first processed by detection, the detections are verified, and only
if detection verification passes does the second pass apply the transform
with the trusted coordinates; if detection verification fails, the pipeline
halts and reports an error. The transform tool itself is a parameter. -/
def offlineVideoRun {α : Type} (d : DetectionStats) (tr : α → α) (v : α) :
    List VPhase × Except String α :=
  if continuityCheck d then
    ([VPhase.detection, VPhase.verification, VPhase.transform],
      Except.ok (tr v))
  else
    ([VPhase.detection, VPhase.verification],
      Except.error "detection verification failed")

theorem continuityCheck_true_iff (d : DetectionStats) :
    continuityCheck d = true ↔
      (missRatio d < 1 / 10 ∧ shortGapRatio d < 1 / 10) := by
  simp [continuityCheck]

/-- C1: For every video job executed in offline mode, the transform (blur)
phase runs only if the detection verification passed; whenever the miss
ratio is ≥ 10% (boundary included) the transform phase never runs and the
pipeline halts with an error, so no unverified transform output is ever
released. -/
theorem offline_transform_only_if_verified {α : Type} (d : DetectionStats)
    (tr : α → α) (v : α) :
    (VPhase.transform ∈ (offlineVideoRun d tr v).1 → continuityCheck d = true) ∧
    (1 / 10 ≤ missRatio d →
      VPhase.transform ∉ (offlineVideoRun d tr v).1 ∧
      (offlineVideoRun d tr v).2 = Except.error "detection verification failed") := by
  by_cases h : continuityCheck d = true
  · refine ⟨fun _ => h, fun hmiss => ?_⟩
    rcases (continuityCheck_true_iff d).mp h with ⟨hlt, -⟩
    exact absurd hlt (not_lt.mpr hmiss)
  · have hfalse : continuityCheck d = false := by
      cases hc : continuityCheck d
      · rfl
      · exact absurd hc h
    constructor
    · intro hmem
      simp only [offlineVideoRun, hfalse] at hmem
      simp at hmem
    · intro _
      constructor
      · simp only [offlineVideoRun, hfalse]
        simp
      · simp [offlineVideoRun, hfalse]

/-- Boundary witness for C1 at miss ratio exactly 10%: one missed frame out
of ten halts the pipeline before the transform phase. -/
theorem offline_transform_only_if_verified_witness :
    VPhase.transform ∉
        (offlineVideoRun (⟨1, 10, 0, 1⟩ : DetectionStats) (fun n : Nat => n) 0).1 ∧
      (offlineVideoRun (⟨1, 10, 0, 1⟩ : DetectionStats) (fun n : Nat => n) 0).2 =
        Except.error "detection verification failed" :=
  (offline_transform_only_if_verified ⟨1, 10, 0, 1⟩ (fun n : Nat => n) 0).2
    (by decide)

/-- C2: For every offline video job, the detection continuity check passes
exactly when the miss ratio is < 10% and the short-gap ratio is < 10%
(equivalently, in raw counts, 10·missed < total and 10·gapTime < trackedTime
when the denominators are positive); if either ratio reaches 10% the check
fails. -/
theorem continuityCheck_passes_iff (d : DetectionStats)
    (ht : 0 < d.totalFrames) (hT : 0 < d.trackedTime) :
    (continuityCheck d = true ↔
      (missRatio d < 1 / 10 ∧ shortGapRatio d < 1 / 10)) ∧
    (continuityCheck d = true ↔
      (10 * d.missedFrames < d.totalFrames ∧
        10 * d.shortGapTime < d.trackedTime)) ∧
    ((1 / 10 ≤ missRatio d ∨ 1 / 10 ≤ shortGapRatio d) →
      continuityCheck d = false) := by
  have htq : (0 : ℚ) < (d.totalFrames : ℚ) := by exact_mod_cast ht
  have hm : missRatio d < 1 / 10 ↔ 10 * d.missedFrames < d.totalFrames := by
    unfold missRatio
    rw [div_lt_div_iff₀ htq (by norm_num : (0 : ℚ) < 10), one_mul, mul_comm]
    constructor
    · intro h; exact_mod_cast h
    · intro h; exact_mod_cast h
  have hg : shortGapRatio d < 1 / 10 ↔ 10 * d.shortGapTime < d.trackedTime := by
    unfold shortGapRatio
    rw [div_lt_div_iff₀ hT (by norm_num : (0 : ℚ) < 10), one_mul, mul_comm]
  refine ⟨continuityCheck_true_iff d, ?_, ?_⟩
  · rw [continuityCheck_true_iff d, hm, hg]
  · intro hor
    cases hc : continuityCheck d
    · rfl
    · rcases (continuityCheck_true_iff d).mp hc with ⟨hmlt, hglt⟩
      rcases hor with h | h
      · exact absurd hmlt (not_lt.mpr h)
      · exact absurd hglt (not_lt.mpr h)

/-- Witness for C2 on a concrete job: 1 missed frame of 100 and 0.1 s of
short gaps over 2 s tracked passes the continuity check. -/
theorem continuityCheck_passes_iff_witness :
    continuityCheck (⟨1, 100, 1 / 10, 2⟩ : DetectionStats) = true :=
  (continuityCheck_passes_iff ⟨1, 100, 1 / 10, 2⟩ (by decide) (by decide)).2.1.mpr
    ⟨by decide, by decide⟩

/-- Modelled from the spec: state tag of a Track,
`state ∈ {detected, tracked, predicted}`. -/
inductive TrackState where
  | detected
  | tracked
  | predicted
deriving Repr, DecidableEq

/-- Modelled from the spec: a bounding box (x, y, w, h). -/
structure Box where
  x : ℚ
  y : ℚ
  w : ℚ
  h : ℚ
deriving Repr, DecidableEq

/-- Modelled from the spec: the velocity half of the 8-dimensional
constant-velocity Kalman state (vx, vy, vw, vh). -/
structure Velocity where
  vx : ℚ
  vy : ℚ
  vw : ℚ
  vh : ℚ
deriving Repr, DecidableEq

/-- Modelled from the spec: `Track = {id, state, bounding box, velocity,
consecutive-predicted-frame counter}`. -/
structure Track where
  id : Nat
  state : TrackState
  box : Box
  vel : Velocity
  predAge : Nat
deriving Repr, DecidableEq

/-- Per-frame evidence available for one Track: a fresh detector hit, a
tracker (appearance-correlation) hit, or a miss by both. -/
inductive Evidence where
  | detection (b : Box)
  | tracked (b : Box)
  | missed
deriving Repr, DecidableEq

/-- Modelled from the spec: a Track may not be carried by pure prediction
for more than 60 consecutive frames. -/
def predictionLimit : Nat := 60

/-- Modelled from the spec: constant-velocity Kalman prediction
x(t) = x(t-1) + v(t-1)·Δt with Δt one frame. -/
def predictBox (b : Box) (v : Velocity) : Box :=
  ⟨b.x + v.vx, b.y + v.vy, b.w + v.vw, b.h + v.vh⟩

/-- Modelled from the spec: per-frame Track update — detector or tracker
evidence resets the consecutive-predicted counter; on a miss the Kalman
filter predicts the position, and the Track is dropped rather than carried
further once the prediction limit is reached. -/
def stepTrack (t : Track) (e : Evidence) : Option Track :=
  match e with
  | Evidence.detection b =>
      some { t with state := TrackState.detected, box := b, predAge := 0 }
  | Evidence.tracked b =>
      some { t with state := TrackState.tracked, box := b, predAge := 0 }
  | Evidence.missed =>
      if t.predAge < predictionLimit then
        some { t with
                state := TrackState.predicted
                box := predictBox t.box t.vel
                predAge := t.predAge + 1 }
      else Option.none

/-- Run one Track through a sequence of per-frame evidence; `Option.none`
means the Track was dropped. -/
def runTrack (t : Track) : List Evidence → Option Track
  | [] => some t
  | e :: es => (stepTrack t e).bind (fun t2 => runTrack t2 es)

/-- C4: For every Track across every frame sequence, the number of
consecutive prediction-only frames never exceeds 60; once the limit is
reached the Track is dropped rather than carried further by prediction. -/
theorem track_prediction_bounded (es : List Evidence) (t : Track)
    (h : t.predAge ≤ predictionLimit) :
    (∀ t2, runTrack t es = some t2 → t2.predAge ≤ predictionLimit) ∧
    (t.predAge = predictionLimit → stepTrack t Evidence.missed = Option.none) := by
  constructor
  · induction es generalizing t with
    | nil =>
        intro t2 h2
        simp only [runTrack, Option.some.injEq] at h2
        exact h2 ▸ h
    | cons e es ih =>
        intro t2 h2
        simp only [runTrack, Option.bind_eq_some] at h2
        rcases h2 with ⟨t1, hstep, hrun⟩
        have h1 : t1.predAge ≤ predictionLimit := by
          cases e with
          | detection b =>
              simp only [stepTrack] at hstep
              cases hstep
              exact Nat.zero_le _
          | tracked b =>
              simp only [stepTrack] at hstep
              cases hstep
              exact Nat.zero_le _
          | missed =>
              simp only [stepTrack] at hstep
              split at hstep
              · rename_i hlt
                cases hstep
                show t.predAge + 1 ≤ predictionLimit
                omega
              · cases hstep
        exact ih t1 h1 t2 hrun
  · intro he
    simp [stepTrack, he]

/-- Witness for C4: a fresh Track survives a detect/miss sequence with its
prediction counter within the 60-frame limit, and a Track at the limit is
dropped on the next miss. -/
theorem track_prediction_bounded_witness :
    ({ id := 0, state := TrackState.predicted,
       box := ⟨3, 2, 3, 4⟩, vel := ⟨1, 0, 0, 0⟩, predAge := 2 } : Track).predAge ≤
        predictionLimit ∧
      stepTrack
        ({ id := 0, state := TrackState.predicted, box := ⟨0, 0, 1, 1⟩,
           vel := ⟨0, 0, 0, 0⟩, predAge := 60 } : Track) Evidence.missed =
        Option.none :=
  ⟨(track_prediction_bounded [Evidence.missed, Evidence.missed]
      { id := 0, state := TrackState.detected, box := ⟨1, 2, 3, 4⟩,
        vel := ⟨1, 0, 0, 0⟩, predAge := 0 } (by decide)).1
      { id := 0, state := TrackState.predicted, box := ⟨3, 2, 3, 4⟩,
        vel := ⟨1, 0, 0, 0⟩, predAge := 2 } (by decide),
    (track_prediction_bounded []
      { id := 0, state := TrackState.predicted, box := ⟨0, 0, 1, 1⟩,
        vel := ⟨0, 0, 0, 0⟩, predAge := 60 } (by decide)).2 (by decide)⟩

/-- Modelled from the spec: `kind ∈ {detector, transform, composite}`. -/
inductive ToolKind where
  | detector
  | transform
  | composite
deriving Repr, DecidableEq

/-- Modelled from the spec: `origin ∈ {builtin, generated}`. -/
inductive ToolOrigin where
  | builtin
  | generated
deriving Repr, DecidableEq

/-- Modelled from the spec: `ToolSpec = {name, kind, input contract, output
contract, origin, content hash}`; immutable once registered. -/
structure ToolSpec where
  name : String
  kind : ToolKind
  inputContract : String
  outputContract : String
  origin : ToolOrigin
  contentHash : Nat
deriving Repr, DecidableEq

/-- The Tool Registry: mapping from tool name to its capability contract. -/
abbrev Registry := List (String × ToolSpec)

/-- Modelled from the spec: `lookup(name) -> ToolSpec | absent`. -/
def lookup (reg : Registry) (n : String) : Option ToolSpec :=
  (reg.find? (fun p => p.1 == n)).map Prod.snd

/-- Modelled from the spec: `register(spec)` — idempotent if an identical
content hash is re-registered under the same name, else rejected as a name
collision; the existing registration is never overwritten. -/
def register (reg : Registry) (s : ToolSpec) : Except String Registry :=
  match lookup reg s.name with
  | Option.none => Except.ok ((s.name, s) :: reg)
  | some old =>
      if old.contentHash == s.contentHash then Except.ok reg
      else Except.error "name collision"

/-- C6: re-registering a ToolSpec under an already-registered name with an
identical content hash is a no-op that does not raise; a different content
hash under the same name is rejected as a name collision; and whenever
`register` succeeds on an already-registered name, the existing registration
is still what `lookup` returns — it is never silently overwritten. -/
theorem register_idempotent_or_collision (reg : Registry) (s : ToolSpec) :
    (∀ old, lookup reg s.name = some old → old.contentHash = s.contentHash →
      register reg s = Except.ok reg) ∧
    (∀ old, lookup reg s.name = some old → old.contentHash ≠ s.contentHash →
      register reg s = Except.error "name collision") ∧
    (∀ old reg2, lookup reg s.name = some old →
      register reg s = Except.ok reg2 → lookup reg2 s.name = some old) := by
  refine ⟨?_, ?_, ?_⟩
  · intro old hl he
    simp [register, hl, he]
  · intro old hl hne
    simp [register, hl, hne]
  · intro old reg2 hl hok
    simp only [register, hl] at hok
    split at hok
    · cases hok
      exact hl
    · cases hok

/-- Witness for C6 on a one-entry Registry: an identical re-registration is
accepted unchanged and a conflicting one is rejected. -/
theorem register_idempotent_or_collision_witness :
    register
        [("blur_faces",
          ⟨"blur_faces", ToolKind.composite, "video", "video",
            ToolOrigin.builtin, 7⟩)]
        ⟨"blur_faces", ToolKind.composite, "video", "video",
          ToolOrigin.builtin, 7⟩ =
      Except.ok
        [("blur_faces",
          ⟨"blur_faces", ToolKind.composite, "video", "video",
            ToolOrigin.builtin, 7⟩)] ∧
    register
        [("blur_faces",
          ⟨"blur_faces", ToolKind.composite, "video", "video",
            ToolOrigin.builtin, 7⟩)]
        ⟨"blur_faces", ToolKind.composite, "video", "video",
          ToolOrigin.generated, 8⟩ =
      Except.error "name collision" :=
  ⟨(register_idempotent_or_collision _ _).1
      ⟨"blur_faces", ToolKind.composite, "video", "video",
        ToolOrigin.builtin, 7⟩ (by decide) (by decide),
    (register_idempotent_or_collision _ _).2.1
      ⟨"blur_faces", ToolKind.composite, "video", "video",
        ToolOrigin.builtin, 7⟩ (by decide) (by decide)⟩

/-- Modelled from the spec: the statically visible safety-relevant facts of
a generated tool candidate — its imports, whether it invokes dynamic
evaluation primitives, and the file paths it writes. -/
structure ToolCode where
  imports : List String
  usesDynamicEval : Bool
  writePaths : List String
deriving Repr, DecidableEq

/-- Modelled from the spec: the allow-listed import set for generated
tools. -/
def allowedImports : List String :=
  ["os", "numpy", "cv2", "pydub", "librosa", "soundfile", "tool_api",
   "registry", "json"]

/-- Modelled from the spec: the designated output directory generated tools
may write under. -/
def outputDir : String := "data/results/"

/-- Modelled from the spec: the static safety screen — reject code importing
outside the allow-listed set, invoking dynamic evaluation primitives, or
writing outside the designated output directory; returns the rejection
reason, or nothing when the code passes. -/
def screenFailureReason (code : ToolCode) : Option String :=
  if !(code.imports.all (fun i => allowedImports.contains i)) then
    some "import outside allow-listed set"
  else if code.usesDynamicEval then
    some "dynamic evaluation primitive"
  else if !(code.writePaths.all (fun p => outputDir.isPrefixOf p)) then
    some "write outside designated output directory"
  else Option.none

/-- Modelled from the spec: generation pipeline — screen the candidate; on
pass, register; on fail, return `GenerationFailure(reason)` without
registering (the Registry is returned unchanged). -/
def generate (reg : Registry) (spec : ToolSpec) (code : ToolCode) :
    Registry × Except String ToolSpec :=
  match screenFailureReason code with
  | some reason => (reg, Except.error reason)
  | Option.none =>
      match register reg spec with
      | Except.ok reg2 => (reg2, Except.ok spec)
      | Except.error e => (reg, Except.error e)

/-- Modelled from the spec: error taxonomy of the pipeline. -/
inductive FailureKind where
  | planningFailure
  | generationFailure
  | detectionVerificationFailure
  | redactionVerificationFailure
  | temporalIntegrityError
  | sandboxViolation
  | malformedManifest
  | missingInputFile
  | executionTimeout
deriving Repr, DecidableEq

/-- What the Executor does next after a failure. -/
inductive NextAction where
  | abortJob
  | retryStep
  | escalateReplan
deriving Repr, DecidableEq

/-- Modelled from the spec: fatal, non-retryable conditions (sandbox-safety
violation, malformed Manifest, missing input file, planning failure)
transition directly to ABORTED; retryable failures retry while attempts
remain, else escalate to replanning. -/
def onFailure (f : FailureKind) (retriesLeft : Nat) : NextAction :=
  match f with
  | FailureKind.sandboxViolation => NextAction.abortJob
  | FailureKind.malformedManifest => NextAction.abortJob
  | FailureKind.missingInputFile => NextAction.abortJob
  | FailureKind.planningFailure => NextAction.abortJob
  | _ => if 0 < retriesLeft then NextAction.retryStep
         else NextAction.escalateReplan

theorem screen_rejects_imports (code : ToolCode)
    (hall : code.imports.all (fun i => allowedImports.contains i) = false) :
    screenFailureReason code = some "import outside allow-listed set" := by
  unfold screenFailureReason
  rw [hall]
  rfl

theorem screen_rejects_dynamicEval (code : ToolCode)
    (hall : code.imports.all (fun i => allowedImports.contains i) = true)
    (hdyn : code.usesDynamicEval = true) :
    screenFailureReason code = some "dynamic evaluation primitive" := by
  unfold screenFailureReason
  rw [hall, hdyn]
  rfl

theorem screen_rejects_writes (code : ToolCode)
    (hall : code.imports.all (fun i => allowedImports.contains i) = true)
    (hdyn : code.usesDynamicEval = false)
    (hwr : code.writePaths.all (fun p => outputDir.isPrefixOf p) = false) :
    screenFailureReason code = some "write outside designated output directory" := by
  unfold screenFailureReason
  rw [hall, hdyn, hwr]
  rfl

/-- C5: the static safety screen rejects generated code that imports outside
the allow-listed set, invokes dynamic evaluation primitives, or writes
outside the designated output directory; a rejected candidate yields
`GenerationFailure(reason)` with the Registry unchanged (the tool is not
registered); and a sandbox-safety violation is fatal — the job aborts with
no retry, whatever the remaining retry budget. -/
theorem safety_screen_rejects_and_sandbox_fatal
    (reg : Registry) (spec : ToolSpec) (code : ToolCode) :
    ((∃ i ∈ code.imports, i ∉ allowedImports) →
      screenFailureReason code ≠ Option.none) ∧
    (code.usesDynamicEval = true → screenFailureReason code ≠ Option.none) ∧
    ((∃ p ∈ code.writePaths, outputDir.isPrefixOf p = false) →
      screenFailureReason code ≠ Option.none) ∧
    (∀ reason, screenFailureReason code = some reason →
      generate reg spec code = (reg, Except.error reason)) ∧
    (∀ n, onFailure FailureKind.sandboxViolation n = NextAction.abortJob) := by
  refine ⟨?_, ?_, ?_, ?_, fun _ => rfl⟩
  · rintro ⟨i, hmem, hnot⟩
    have hall : code.imports.all (fun i => allowedImports.contains i) = false := by
      rw [Bool.eq_false_iff]
      intro hal2
      rw [List.all_eq_true] at hal2
      exact hnot (by simpa using hal2 i hmem)
    rw [screen_rejects_imports code hall]
    simp
  · intro hdyn
    by_cases hall : code.imports.all (fun i => allowedImports.contains i) = true
    · rw [screen_rejects_dynamicEval code hall hdyn]
      simp
    · rw [screen_rejects_imports code (Bool.eq_false_iff.mpr hall)]
      simp
  · rintro ⟨p, hmem, hnot⟩
    by_cases hall : code.imports.all (fun i => allowedImports.contains i) = true
    · by_cases hdyn : code.usesDynamicEval = true
      · rw [screen_rejects_dynamicEval code hall hdyn]
        simp
      · have hwr : code.writePaths.all (fun p => outputDir.isPrefixOf p) = false := by
          rw [Bool.eq_false_iff]
          intro hw
          rw [List.all_eq_true] at hw
          have := hw p hmem
          rw [hnot] at this
          cases this
        rw [screen_rejects_writes code hall (Bool.eq_false_iff.mpr hdyn) hwr]
        simp
    · rw [screen_rejects_imports code (Bool.eq_false_iff.mpr hall)]
      simp
  · intro reason hscr
    simp [generate, hscr]

/-- Witness for C5: a candidate importing `socket` is rejected with the
Registry untouched, and a sandbox violation aborts even with retries
left. -/
theorem safety_screen_rejects_and_sandbox_fatal_witness :
    screenFailureReason ⟨["socket"], false, []⟩ ≠ Option.none ∧
    generate []
        ⟨"exfiltrate", ToolKind.transform, "any", "any", ToolOrigin.generated, 3⟩
        ⟨["socket"], false, []⟩ =
      ([], Except.error "import outside allow-listed set") ∧
    onFailure FailureKind.sandboxViolation 5 = NextAction.abortJob :=
  ⟨(safety_screen_rejects_and_sandbox_fatal [] ⟨"exfiltrate", ToolKind.transform,
      "any", "any", ToolOrigin.generated, 3⟩ ⟨["socket"], false, []⟩).1
      ⟨"socket", by decide, by decide⟩,
    (safety_screen_rejects_and_sandbox_fatal [] ⟨"exfiltrate", ToolKind.transform,
      "any", "any", ToolOrigin.generated, 3⟩ ⟨["socket"], false, []⟩).2.2.2.1
      "import outside allow-listed set" (by decide),
    (safety_screen_rejects_and_sandbox_fatal [] ⟨"exfiltrate", ToolKind.transform,
      "any", "any", ToolOrigin.generated, 3⟩ ⟨["socket"], false, []⟩).2.2.2.2 5⟩

/-- Modelled from the spec: chronological validity of one segment —
start < end and end ≤ audio duration. -/
def segChronoOk (dur : ℚ) (s : RedactionSegment) : Bool :=
  decide (s.tStart < s.tEnd) && decide (s.tEnd ≤ dur)

/-- Modelled from the spec: a single redaction segment longer than 15 s is
flagged as implausible. -/
def segImplausible (s : RedactionSegment) : Bool :=
  decide (15 < s.tEnd - s.tStart)

/-- Two segments overlap when their open time intervals intersect. -/
def segsOverlap (a b : RedactionSegment) : Bool :=
  decide (a.tStart < b.tEnd) && decide (b.tStart < a.tEnd)

/-- Two segments are duplicates when they carry identical timestamps. -/
def segsDuplicate (a b : RedactionSegment) : Bool :=
  decide (a.tStart = b.tStart) && decide (a.tEnd = b.tEnd)

/-- Modelled from the spec: the number of segments that overlap another
segment or duplicate another segment's timestamps. -/
def badSegCount (segs : List RedactionSegment) : Nat :=
  segs.enum.countP (fun p =>
    segs.enum.any (fun q =>
      decide (p.1 ≠ q.1) && (segsOverlap p.2 q.2 || segsDuplicate p.2 q.2)))

/-- Outcome of the audio temporal-integrity check. -/
structure IntegrityReport where
  chronoOk : Bool
  implausibleCount : Nat
  badCount : Nat
  passed : Bool
deriving Repr, DecidableEq

/-- Modelled from the spec: audio temporal-integrity check — every
segment's start < end and end ≤ duration; any single segment > 15 s is
flagged as implausible; if more than 50% of the segments overlap or are
duplicates, verification fails outright. -/
def temporalIntegrity (dur : ℚ) (segs : List RedactionSegment) :
    IntegrityReport :=
  let chrono := segs.all (segChronoOk dur)
  let bad := badSegCount segs
  { chronoOk := chrono
    implausibleCount := segs.countP segImplausible
    badCount := bad
    passed := chrono && decide (2 * bad ≤ segs.length) }

/-- C8: the audio temporal-integrity check passes exactly when every
segment satisfies start < end ∧ end ≤ duration and at most 50% of the
segments overlap or are duplicates; a segment longer than 15 s is flagged
as implausible; and when more than 50% of the segments overlap or are
duplicates, verification fails outright. -/
theorem temporalIntegrity_spec (dur : ℚ) (segs : List RedactionSegment) :
    ((temporalIntegrity dur segs).passed = true ↔
      ((∀ s ∈ segs, s.tStart < s.tEnd ∧ s.tEnd ≤ dur) ∧
        2 * badSegCount segs ≤ segs.length)) ∧
    (0 < (temporalIntegrity dur segs).implausibleCount ↔
      ∃ s ∈ segs, 15 < s.tEnd - s.tStart) ∧
    (segs.length < 2 * badSegCount segs →
      (temporalIntegrity dur segs).passed = false) := by
  refine ⟨?_, ?_, ?_⟩
  · simp [temporalIntegrity, segChronoOk, List.all_eq_true]
  · simp [temporalIntegrity, segImplausible, List.countP_pos_iff]
  · intro h
    simp [temporalIntegrity, Nat.not_le.mpr h]

/-- Witness for C8: two duplicate segments make more than 50% of the set
overlap/duplicate, so the check fails on them even though they are
chronologically valid. -/
theorem temporalIntegrity_spec_witness :
    (temporalIntegrity 30
      [⟨1, 2, Mode.silence⟩, ⟨1, 2, Mode.silence⟩]).passed = false :=
  (temporalIntegrity_spec 30
    [⟨1, 2, Mode.silence⟩, ⟨1, 2, Mode.silence⟩]).2.2 (by decide)

/-- Modelled from the spec: an audio file — container format, sample rate,
and raw samples. -/
structure AudioFile where
  format : String
  sampleRate : Nat
  samples : List ℤ
deriving Repr, DecidableEq

/-- Modelled from the spec: amplitude of the inserted 1 kHz beep tone. -/
def beepSample : ℤ := 8000

/-- Time of the sample at a given index. -/
def sampleTime (rate : Nat) (i : Nat) : ℚ := (i : ℚ) / (rate : ℚ)

/-- Whether a segment covers a given time instant. -/
def coversTime (s : RedactionSegment) (t : ℚ) : Bool :=
  decide (s.tStart ≤ t) && decide (t < s.tEnd)

/-- Modelled from the spec: the value a covered sample is rewritten to —
silence replaces it by 0, beep inserts the tone, the `none` test fixture
leaves it untouched. -/
def redactedSampleValue (x : ℤ) : Mode → ℤ
  | Mode.silence => 0
  | Mode.beep => beepSample
  | Mode.none => x

/-- Modelled from the spec: offline redaction application — each
RedactionSegment is realized as silence or an inserted tone directly on the
audio samples, and the result is exported preserving the original
format/quality (format and sample rate unchanged). -/
def applyRedaction (segs : List RedactionSegment) (a : AudioFile) :
    AudioFile :=
  { format := a.format
    sampleRate := a.sampleRate
    samples := a.samples.enum.map (fun p =>
      match segs.find? (fun s => coversTime s (sampleTime a.sampleRate p.1)) with
      | some s => redactedSampleValue p.2 s.mode
      | Option.none => p.2) }

/-- C10: offline audio redaction rewrites exactly the samples covered by a
RedactionSegment — to 0 for silence, to the beep tone for beep — keeps
every other sample, preserves the number of samples, and the output file's
format and sample rate equal the input file's. -/
theorem applyRedaction_preserves_format (segs : List RedactionSegment)
    (a : AudioFile) :
    (applyRedaction segs a).format = a.format ∧
    (applyRedaction segs a).sampleRate = a.sampleRate ∧
    (applyRedaction segs a).samples.length = a.samples.length ∧
    (∀ i : Nat,
      (applyRedaction segs a).samples[i]? =
        (a.samples[i]?).map (fun x =>
          match segs.find? (fun s => coversTime s (sampleTime a.sampleRate i)) with
          | some s => redactedSampleValue x s.mode
          | Option.none => x)) ∧
    (∀ x : ℤ, redactedSampleValue x Mode.silence = 0 ∧
      redactedSampleValue x Mode.beep = beepSample) := by
  refine ⟨rfl, rfl, by simp [applyRedaction], ?_, fun x => ⟨rfl, rfl⟩⟩
  intro i
  simp only [applyRedaction, List.getElem?_map, List.getElem?_enum]
  cases a.samples[i]? with
  | none => rfl
  | some x => rfl

/-- Modelled from the spec: the diagnostic report composed when a step's
verification keeps failing — failing stage, verification metrics, tool name,
arguments tried. -/
structure Diagnostic where
  failingStage : String
  metrics : List String
  toolName : String
  argsTried : List String
deriving Repr, DecidableEq

/-- Terminal outcome of one job: COMMITTED with the successful round and
attempt, or ABORTED with the full diagnostic trail. -/
inductive JobOutcome where
  | committed (round attempt : Nat)
  | aborted (trail : List Diagnostic)
deriving Repr, DecidableEq

/-- Modelled from the spec: one round of local retries — re-execution with
substitute tools or adjusted arguments up to the fixed local retry bound;
returns the attempts tried and the first attempt whose verification
passed, if any. -/
def roundAttempts (ok : Nat → Bool) (retryBound : Nat) :
    List Nat × Option Nat :=
  match (List.range retryBound).find? ok with
  | some a => (List.range (a + 1), some a)
  | Option.none => (List.range retryBound, Option.none)

/-- The diagnostic report for one exhausted round. -/
def diagnosticFor (tool : String) (round : Nat) (attempts : List Nat) :
    Diagnostic :=
  { failingStage := "verification"
    metrics := ["verification threshold not met"]
    toolName := tool
    argsTried := attempts.map (fun a => toString (round, a)) }

/-- Modelled from the spec: the Executor's closed recovery loop — each
replanning round runs local retries; if one attempt verifies, the job
commits; on exhaustion the Executor composes a diagnostic report and, when
replans remain, calls the Planner with it (REPLANNING) and restarts;
exceeding the bounded total replan count yields ABORTED with the full
diagnostic trail. The returned list is the sequence of diagnostic contexts
passed to the Planner. -/
def runJob (ok : Nat → Nat → Bool) (retryBound : Nat) (tool : String) :
    Nat → Nat → List Diagnostic → List Diagnostic × JobOutcome
  | replansLeft, round, trail =>
    match (roundAttempts (ok round) retryBound).2 with
    | some a => ([], JobOutcome.committed round a)
    | Option.none =>
        match replansLeft with
        | 0 => ([], JobOutcome.aborted (trail ++
            [diagnosticFor tool round (roundAttempts (ok round) retryBound).1]))
        | n + 1 =>
            let d := diagnosticFor tool round (roundAttempts (ok round) retryBound).1
            let res := runJob ok retryBound tool n (round + 1) (trail ++ [d])
            (d :: res.1, res.2)

theorem runJob_planner_calls_nonempty_metrics (ok : Nat → Nat → Bool)
    (retryBound : Nat) (tool : String) :
    ∀ (n round : Nat) (trail : List Diagnostic),
      ∀ d ∈ (runJob ok retryBound tool n round trail).1, d.metrics ≠ [] := by
  intro n
  induction n with
  | zero =>
      intro round trail d hd
      rw [runJob] at hd
      cases hro : (roundAttempts (ok round) retryBound).2 with
      | some a => rw [hro] at hd; simp at hd
      | none => rw [hro] at hd; simp at hd
  | succ n ih =>
      intro round trail d hd
      rw [runJob] at hd
      cases hro : (roundAttempts (ok round) retryBound).2 with
      | some a => rw [hro] at hd; simp at hd
      | none =>
          rw [hro] at hd
          simp only [List.mem_cons] at hd
          rcases hd with hd | hd
          · rw [hd]
            simp [diagnosticFor]
          · exact ih (round + 1) _ d hd

theorem runJob_replans_bounded (ok : Nat → Nat → Bool)
    (retryBound : Nat) (tool : String) :
    ∀ (n round : Nat) (trail : List Diagnostic),
      (runJob ok retryBound tool n round trail).1.length ≤ n := by
  intro n
  induction n with
  | zero =>
      intro round trail
      rw [runJob]
      cases hro : (roundAttempts (ok round) retryBound).2 <;> simp [hro]
  | succ n ih =>
      intro round trail
      rw [runJob]
      cases hro : (roundAttempts (ok round) retryBound).2 with
      | some a => simp [hro]
      | none =>
          simp only [hro, List.length_cons]
          exact Nat.succ_le_succ (ih (round + 1) _)

theorem runJob_all_fail_aborts (ok : Nat → Nat → Bool)
    (retryBound : Nat) (tool : String) (hfail : ∀ r a, ok r a = false) :
    ∀ (n round : Nat) (trail : List Diagnostic),
      ∃ tr, (runJob ok retryBound tool n round trail).2 =
          JobOutcome.aborted tr ∧
        tr.length = trail.length + n + 1 := by
  have hro : ∀ round, (roundAttempts (ok round) retryBound).2 = Option.none := by
    intro round
    unfold roundAttempts
    rw [List.find?_eq_none.mpr (fun x _ => by simp [hfail])]
  intro n
  induction n with
  | zero =>
      intro round trail
      rw [runJob, hro round]
      exact ⟨_, rfl, by simp⟩
  | succ n ih =>
      intro round trail
      rw [runJob, hro round]
      rcases ih (round + 1)
          (trail ++ [diagnosticFor tool round (roundAttempts (ok round) retryBound).1])
        with ⟨tr, htr, hlen⟩
      refine ⟨tr, htr, ?_⟩
      rw [hlen]
      simp
      omega

/-- C9: per replanning round the Executor re-executes at most the fixed
local retry bound of attempts; on retry exhaustion with replans remaining
it calls the Planner with a non-empty diagnostic context (REPLANNING), and
every diagnostic context it ever passes to the Planner is non-empty; the
total number of planner calls is bounded by the replan bound; and when
verification never passes, the job terminates in ABORTED carrying the full
diagnostic trail (one report per round). -/
theorem executor_retry_replan_bounded (ok : Nat → Nat → Bool)
    (retryBound : Nat) (tool : String) (replanBound round : Nat)
    (trail : List Diagnostic) :
    ((roundAttempts (ok round) retryBound).1.length ≤ retryBound) ∧
    (∀ d ∈ (runJob ok retryBound tool replanBound round trail).1,
      d.metrics ≠ []) ∧
    ((roundAttempts (ok round) retryBound).2 = Option.none → 0 < replanBound →
      ∃ d, (runJob ok retryBound tool replanBound round trail).1.head? = some d ∧
        d.metrics ≠ []) ∧
    ((runJob ok retryBound tool replanBound round trail).1.length ≤ replanBound) ∧
    ((∀ r a, ok r a = false) →
      ∃ tr, (runJob ok retryBound tool replanBound round trail).2 =
          JobOutcome.aborted tr ∧
        tr.length = trail.length + replanBound + 1) := by
  refine ⟨?_, runJob_planner_calls_nonempty_metrics ok retryBound tool
      replanBound round trail, ?_, runJob_replans_bounded ok retryBound tool
      replanBound round trail,
    fun hfail => runJob_all_fail_aborts ok retryBound tool hfail
      replanBound round trail⟩
  · unfold roundAttempts
    cases hf : (List.range retryBound).find? (ok round) with
    | none => simp
    | some a =>
        have ha : a ∈ List.range retryBound := List.mem_of_find?_eq_some hf
        rw [List.mem_range] at ha
        simp only []
        rw [List.length_range]
        omega
  · intro hro hpos
    cases replanBound with
    | zero => cases hpos
    | succ n =>
        refine ⟨diagnosticFor tool round (roundAttempts (ok round) retryBound).1,
          ?_, by simp [diagnosticFor]⟩
        rw [runJob, hro]
        rfl

/-- Witness for C9, the spec's scenario with local retry bound 2 and every
verification failing: the Executor calls the Planner with a non-empty
diagnostic context and, with replan bound 2, ends ABORTED with the full
trail of three round reports. -/
theorem executor_retry_replan_bounded_witness :
    (∃ d, (runJob (fun _ _ => false) 2 "detect_faces" 2 0 []).1.head? =
        some d ∧ d.metrics ≠ []) ∧
    (∃ tr, (runJob (fun _ _ => false) 2 "detect_faces" 2 0 []).2 =
        JobOutcome.aborted tr ∧ tr.length = 0 + 2 + 1) :=
  ⟨(executor_retry_replan_bounded (fun _ _ => false) 2 "detect_faces" 2 0
      []).2.2.1 (by decide) (by decide),
    (executor_retry_replan_bounded (fun _ _ => false) 2 "detect_faces" 2 0
      []).2.2.2.2 (fun _ _ => rfl)⟩

/-- Modelled from the spec: word normalization — lowercased with
punctuation stripped. -/
def normalizeWord (s : String) : String :=
  String.mk ((s.toList.filter Char.isAlphanum).map Char.toLower)

/-- Modelled from the spec: comparing one phrase word against one
transcript word — single-word phrases require exact match, multi-word
phrases use the fuzzy comparator `fz`. -/
def wordTest (fz : String → String → Bool) (multi : Bool) (p t : String) :
    Bool :=
  if multi then fz p t else p == t

/-- Modelled from the spec: matching the phrase against the front of the
word sequence; on success returns the matched span and the remaining
words. -/
def splitMatch (fz : String → String → Bool) (multi : Bool) :
    List String → List TWord → Option (List TWord × List TWord)
  | [], ws => some ([], ws)
  | _ :: _, [] => Option.none
  | p :: ps, w :: rest =>
      if wordTest fz multi p (normalizeWord w.text) then
        (splitMatch fz multi ps rest).map (fun mr => (w :: mr.1, mr.2))
      else Option.none

/-- Modelled from the spec: the RedactionSegment recorded for one matched
span — from the first matched word's start time to the last matched word's
end time. -/
def segOf (mode : Mode) (m : List TWord) : RedactionSegment :=
  { tStart := ((m.head?).map TWord.tStart).getD 0
    tEnd := ((m.getLast?).map TWord.tEnd).getD 0
    mode := mode }

/-- Fuel-indexed sliding-window scan (the fuel argument only forces
termination; it is set to the word-list length, which the scan never
exceeds because a match always consumes at least one word). -/
def localizeScanFuel (fz : String → String → Bool) (p0 : String)
    (ps : List String) (mode : Mode) :
    Nat → List TWord → List RedactionSegment
  | 0, _ => []
  | _ + 1, [] => []
  | fuel + 1, w :: rest =>
      match splitMatch fz (!ps.isEmpty) (p0 :: ps) (w :: rest) with
      | some (m, r) => segOf mode m :: localizeScanFuel fz p0 ps mode fuel r
      | Option.none => localizeScanFuel fz p0 ps mode fuel rest

/-- Modelled from the spec: sliding-window localization of the phrase
`p0 :: ps` — scan the word list; on a match record a RedactionSegment
spanning the matched words and advance the scan past the matched span;
otherwise advance by one word. -/
def localizeScan (fz : String → String → Bool) (p0 : String)
    (ps : List String) (mode : Mode) (ws : List TWord) :
    List RedactionSegment :=
  localizeScanFuel fz p0 ps mode ws.length ws

/-- Split a character stream into words at spaces; `acc` holds the
characters of the current word in reverse. -/
def splitWordsAux : List Char → List Char → List String
  | [], acc => if acc.isEmpty then [] else [String.mk acc.reverse]
  | c :: cs, acc =>
      if c = ' ' then
        if acc.isEmpty then splitWordsAux cs []
        else String.mk acc.reverse :: splitWordsAux cs []
      else splitWordsAux cs (c :: acc)

/-- Split a phrase into its space-separated words. -/
def splitWords (s : String) : List String := splitWordsAux s.toList []

/-- Modelled from the spec: the words of a sensitive phrase, normalized
like the transcript words (empty residues are dropped). -/
def phraseWords (p : String) : List String :=
  ((splitWords p).map normalizeWord).filter (fun t => t != "")

/-- Whether the word sequence `ph` occurs consecutively inside `ts`. -/
def containsSeq (ph : List String) : List String → Bool
  | [] => ph.isEmpty
  | t :: ts => ph.isPrefixOf (t :: ts) || containsSeq ph ts

/-- Modelled from the spec: localize one sensitive phrase in the flattened,
normalized word-timestamp sequence. -/
def localizePhrase (fz : String → String → Bool) (p : String) (mode : Mode)
    (ws : List TWord) : List RedactionSegment :=
  match phraseWords p with
  | [] => []
  | p0 :: ps => localizeScan fz p0 ps mode ws

/-- Whether a transcript word's time span overlaps a redaction segment. -/
def overlapsSeg (s : RedactionSegment) (w : TWord) : Bool :=
  decide (w.tStart < s.tEnd) && decide (s.tStart < w.tEnd)

/-- Modelled from the spec: word-level effect of applying redaction
segments to the audio — a spoken word covered by a silence or beep segment
is no longer recognizable speech (its recognizable text becomes empty); a
word covered only by the `none` test fixture, or by no segment, is
untouched. -/
def redactWord (segs : List RedactionSegment) (w : TWord) : TWord :=
  match segs.find? (fun s => overlapsSeg s w) with
  | some s =>
      match s.mode with
      | Mode.none => w
      | _ => { w with text := "" }
  | Option.none => w

/-- Apply the word-level redaction across the audio. -/
def redactWords (segs : List RedactionSegment) (ws : List TWord) :
    List TWord :=
  ws.map (redactWord segs)

/-- Modelled from the spec: re-transcription of (redacted) audio — the
normalized word sequence of its recognizable words. -/
def transcribe (ws : List TWord) : List String :=
  ws.map (fun w => normalizeWord w.text)

/-- Modelled from the spec: compliance check — the redacted audio's new
transcript is checked against the original sensitive-phrase list; if any
original phrase is still recognizable (its normalized words occur
consecutively), verification fails. -/
def complianceCheck (phrases : List String) (transcript : List String) :
    Bool :=
  phrases.all (fun p =>
    match phraseWords p with
    | [] => true
    | p0 :: ps => !(containsSeq (p0 :: ps) transcript))

/-- Chronological word order: each word ends no later than any later word
starts. -/
abbrev Chrono (ws : List TWord) : Prop :=
  List.Pairwise (fun a b => a.tEnd ≤ b.tStart) ws

/-- Every word has positive duration. -/
abbrev WfWords (ws : List TWord) : Prop := ∀ w ∈ ws, w.tStart < w.tEnd

theorem splitMatch_eq_append (fz : String → String → Bool) (multi : Bool) :
    ∀ (ph : List String) (ws m r : List TWord),
      splitMatch fz multi ph ws = some (m, r) →
      ws = m ++ r ∧ m.length = ph.length := by
  intro ph
  induction ph with
  | nil =>
      intro ws m r h
      simp only [splitMatch, Option.some.injEq, Prod.mk.injEq] at h
      rcases h with ⟨hm, hr⟩
      subst hm; subst hr
      simp
  | cons p ps ih =>
      intro ws m r h
      cases ws with
      | nil => exact Option.noConfusion h
      | cons w rest =>
          simp only [splitMatch] at h
          split at h
          · cases hsm : splitMatch fz multi ps rest with
            | none => rw [hsm] at h; simp at h
            | some mr =>
                rcases mr with ⟨m1, r1⟩
                rw [hsm] at h
                injection h with h2
                cases h2
                rcases ih rest m1 r1 hsm with ⟨he, hl⟩
                constructor
                · rw [he]; rfl
                · simp [hl]
          · cases h

theorem splitMatch_self (fz : String → String → Bool) (multi : Bool) :
    ∀ (ph : List String) (ws m r : List TWord),
      splitMatch fz multi ph ws = some (m, r) →
      splitMatch fz multi ph m = some (m, []) := by
  intro ph
  induction ph with
  | nil =>
      intro ws m r h
      simp only [splitMatch, Option.some.injEq, Prod.mk.injEq] at h
      rcases h with ⟨hm, -⟩
      subst hm
      rfl
  | cons p ps ih =>
      intro ws m r h
      cases ws with
      | nil => exact Option.noConfusion h
      | cons w rest =>
          simp only [splitMatch] at h
          split at h
          · rename_i htest
            cases hsm : splitMatch fz multi ps rest with
            | none => rw [hsm] at h; exact Option.noConfusion h
            | some mr =>
                rcases mr with ⟨m1, r1⟩
                rw [hsm] at h
                injection h with h2
                cases h2
                have ih2 := ih rest m1 r1 hsm
                simp [splitMatch, htest, ih2]
          · exact Option.noConfusion h

theorem splitMatch_extend (fz : String → String → Bool) (multi : Bool) :
    ∀ (ph : List String) (m r : List TWord),
      splitMatch fz multi ph m = some (m, []) →
      splitMatch fz multi ph (m ++ r) = some (m, r) := by
  intro ph
  induction ph with
  | nil =>
      intro m r h
      simp only [splitMatch, Option.some.injEq, Prod.mk.injEq] at h
      rcases h with ⟨hm, -⟩
      subst hm
      rfl
  | cons p ps ih =>
      intro m r h
      cases m with
      | nil => exact Option.noConfusion h
      | cons w m2 =>
          simp only [splitMatch] at h
          simp only [List.cons_append, splitMatch, List.append_eq]
          split at h
          · rename_i htest
            rw [if_pos htest]
            cases hsm : splitMatch fz multi ps m2 with
            | none => rw [hsm] at h; exact Option.noConfusion h
            | some mr =>
                rcases mr with ⟨m1, r1⟩
                rw [hsm] at h
                replace h : (some (w :: m1, r1) :
                    Option (List TWord × List TWord)) = some (w :: m2, []) := h
                injection h with h2
                injection h2 with ha hb
                injection ha with h4 h5
                subst h5
                subst hb
                rw [ih _ r hsm]
                rfl
          · exact Option.noConfusion h

theorem splitMatch_of_texts (fz : String → String → Bool)
    (hfz : ∀ s, fz s s = true) (multi : Bool) :
    ∀ (ph : List String) (m : List TWord),
      m.map (fun w => normalizeWord w.text) = ph →
      splitMatch fz multi ph m = some (m, []) := by
  intro ph
  induction ph with
  | nil =>
      intro m h
      rw [List.map_eq_nil_iff] at h
      subst h
      rfl
  | cons p ps ih =>
      intro m h
      cases m with
      | nil => simp at h
      | cons w m2 =>
          simp only [List.map_cons, List.cons.injEq] at h
          rcases h with ⟨hp, hps⟩
          have htest : wordTest fz multi p (normalizeWord w.text) = true := by
            rw [← hp]
            unfold wordTest
            cases multi
            · simp
            · simp [hfz]
          simp [splitMatch, htest, ih m2 hps]

theorem chrono_cons_tail {x : TWord} {xs : List TWord}
    (hc : Chrono (x :: xs)) : Chrono xs := by
  cases hc with | cons _ h => exact h

theorem chrono_append_right {m r : List TWord} (hc : Chrono (m ++ r)) :
    Chrono r :=
  (List.pairwise_append.mp hc).2.1

theorem wf_cons_tail {x : TWord} {xs : List TWord}
    (h : WfWords (x :: xs)) : WfWords xs :=
  fun u hu => h u (List.mem_cons_of_mem _ hu)

theorem wf_append_right {m r : List TWord} (h : WfWords (m ++ r)) :
    WfWords r :=
  fun u hu => h u (List.mem_append_right _ hu)

theorem chrono_head_le (x : TWord) (xs : List TWord)
    (hc : Chrono (x :: xs)) (hwf : WfWords (x :: xs)) :
    ∀ w ∈ x :: xs, x.tStart ≤ w.tStart := by
  intro w hw
  rcases List.mem_cons.mp hw with rfl | hw2
  · exact le_refl _
  · cases hc with | cons hrel _ =>
    have h1 : x.tEnd ≤ w.tStart := hrel w hw2
    have h2 : x.tStart < x.tEnd := hwf x (List.mem_cons_self x xs)
    linarith

theorem chrono_le_getLast :
    ∀ (m : List TWord) (hm : m ≠ []), Chrono m → WfWords m →
      ∀ w ∈ m, w.tEnd ≤ (m.getLast hm).tEnd := by
  intro m
  induction m with
  | nil => intro hm; cases hm rfl
  | cons x xs ih =>
      intro hm hc hwf w hw
      cases xs with
      | nil =>
          rcases List.mem_cons.mp hw with rfl | hw2
          · simp [List.getLast]
          · cases hw2
      | cons y ys =>
          have hyne : (y :: ys) ≠ ([] : List TWord) := by simp
          have hlast : (x :: y :: ys).getLast hm = (y :: ys).getLast hyne :=
            List.getLast_cons hyne
          cases hc with | cons hrel hc2 =>
          have hwf2 : WfWords (y :: ys) := wf_cons_tail hwf
          rcases List.mem_cons.mp hw with rfl | hw2
          · have h1 : w.tEnd ≤ y.tStart := hrel y (List.mem_cons_self y ys)
            have h2 : y.tStart < y.tEnd := hwf2 y (List.mem_cons_self y ys)
            have h3 : y.tEnd ≤ ((y :: ys).getLast hyne).tEnd :=
              ih hyne hc2 hwf2 y (List.mem_cons_self y ys)
            rw [hlast]
            linarith
          · rw [hlast]
            exact ih hyne hc2 hwf2 w hw2

theorem segOf_tStart (mode : Mode) (x : TWord) (xs : List TWord) :
    (segOf mode (x :: xs)).tStart = x.tStart := by
  simp [segOf]

theorem segOf_tEnd (mode : Mode) (m : List TWord) (hm : m ≠ []) :
    (segOf mode m).tEnd = (m.getLast hm).tEnd := by
  simp [segOf, List.getLast?_eq_getLast m hm]

theorem segOf_mode (mode : Mode) (m : List TWord) :
    (segOf mode m).mode = mode := rfl

theorem overlapsSeg_of_mem (mode : Mode) (m : List TWord) (hm : m ≠ [])
    (hc : Chrono m) (hwf : WfWords m) :
    ∀ w ∈ m, overlapsSeg (segOf mode m) w = true := by
  intro w hw
  cases m with
  | nil => cases hm rfl
  | cons x xs =>
      have hne : (x :: xs) ≠ ([] : List TWord) := by simp
      have h1 : x.tStart ≤ w.tStart := chrono_head_le x xs hc hwf w hw
      have h2 : w.tEnd ≤ ((x :: xs).getLast hne).tEnd :=
        chrono_le_getLast (x :: xs) hne hc hwf w hw
      have h3 : w.tStart < w.tEnd := hwf w hw
      simp only [overlapsSeg, Bool.and_eq_true, decide_eq_true_eq]
      rw [segOf_tStart, segOf_tEnd mode (x :: xs) hne]
      exact ⟨by linarith, by linarith⟩

theorem not_overlapsSeg_after (mode : Mode) (m r : List TWord) (hm : m ≠ [])
    (hc : Chrono (m ++ r)) : ∀ w ∈ r, overlapsSeg (segOf mode m) w = false := by
  intro w hw
  have hcross := (List.pairwise_append.mp hc).2.2
  have hlast : m.getLast hm ∈ m := List.getLast_mem hm
  have h1 : (m.getLast hm).tEnd ≤ w.tStart := hcross _ hlast w hw
  have h2 : ¬ (w.tStart < (segOf mode m).tEnd) := by
    rw [segOf_tEnd mode m hm]
    linarith
  simp [overlapsSeg, h2]

theorem not_overlapsSeg_before (mode : Mode) (x : TWord) (m : List TWord)
    (hm : m ≠ []) (hb : ∀ u ∈ m, x.tEnd ≤ u.tStart) :
    overlapsSeg (segOf mode m) x = false := by
  cases m with
  | nil => cases hm rfl
  | cons y ys =>
      have h1 : x.tEnd ≤ y.tStart := hb y (List.mem_cons_self y ys)
      have h2 : ¬ ((segOf mode (y :: ys)).tStart < x.tEnd) := by
        rw [segOf_tStart]
        linarith
      simp [overlapsSeg, h2]

theorem isInfix_right_of_blank (A B : List String) (p0 : String)
    (ps : List String) (hA : ∀ t ∈ A, t = "")
    (hph : ∀ p ∈ p0 :: ps, p ≠ "")
    (h : List.IsInfix (p0 :: ps) (A ++ B)) :
    List.IsInfix (p0 :: ps) B := by
  rcases h with ⟨s, t, hst⟩
  rw [List.append_assoc] at hst
  rcases List.append_eq_append_iff.mp hst with ⟨a2, hA1, hb⟩ | ⟨c2, -, hd⟩
  · cases a2 with
    | nil =>
        rw [List.nil_append] at hb
        exact ⟨[], t, by simp [hb]⟩
    | cons x a3 =>
        exfalso
        rw [List.cons_append] at hb
        rw [List.cons_append] at hb
        injection hb with h1 h2
        have hxA : x ∈ A := by
          rw [hA1]
          exact List.mem_append_right _ (List.mem_cons_self x a3)
        exact hph p0 (List.mem_cons_self p0 ps) (h1.trans (hA x hxA))
  · exact ⟨c2, t, by rw [hd, List.append_assoc]⟩

theorem localizeScanFuel_mode (fz : String → String → Bool) (p0 : String)
    (ps : List String) (mode : Mode) :
    ∀ (fuel : Nat) (ws : List TWord),
      ∀ seg ∈ localizeScanFuel fz p0 ps mode fuel ws, seg.mode = mode := by
  intro fuel
  induction fuel with
  | zero => intro ws seg h; simp [localizeScanFuel] at h
  | succ fuel ih =>
      intro ws seg h
      cases ws with
      | nil => simp [localizeScanFuel] at h
      | cons w rest =>
          simp only [localizeScanFuel] at h
          cases hsm : splitMatch fz (!ps.isEmpty) (p0 :: ps) (w :: rest) with
          | some mr =>
              rcases mr with ⟨m, r⟩
              rw [hsm] at h
              rcases List.mem_cons.mp h with rfl | h2
              · rfl
              · exact ih r seg h2
          | none =>
              rw [hsm] at h
              exact ih rest seg h

theorem localizeScanFuel_segments (fz : String → String → Bool) (p0 : String)
    (ps : List String) (mode : Mode) :
    ∀ (fuel : Nat) (ws : List TWord), ws.length ≤ fuel →
      ∀ seg ∈ localizeScanFuel fz p0 ps mode fuel ws,
        ∃ pre m post, ws = pre ++ m ++ post ∧
          splitMatch fz (!ps.isEmpty) (p0 :: ps) m = some (m, []) ∧
          m.length = ps.length + 1 ∧ seg = segOf mode m := by
  intro fuel
  induction fuel with
  | zero => intro ws hlen seg hseg; simp [localizeScanFuel] at hseg
  | succ fuel ih =>
      intro ws hlen seg hseg
      cases ws with
      | nil => simp [localizeScanFuel] at hseg
      | cons w rest =>
          simp only [localizeScanFuel] at hseg
          have hlen2 : rest.length ≤ fuel := by
            simp only [List.length_cons] at hlen
            omega
          cases hsm : splitMatch fz (!ps.isEmpty) (p0 :: ps) (w :: rest) with
          | some mr =>
              rcases mr with ⟨m, r⟩
              rw [hsm] at hseg
              rcases splitMatch_eq_append _ _ _ _ _ _ hsm with ⟨he, hl⟩
              simp only [List.length_cons] at hl
              rcases List.mem_cons.mp hseg with rfl | hseg2
              · exact ⟨[], m, r, by simpa using he,
                  splitMatch_self _ _ _ _ _ _ hsm, hl, rfl⟩
              · have hrlen : r.length ≤ fuel := by
                  have hlen3 : (w :: rest).length = m.length + r.length := by
                    rw [he, List.length_append]
                  simp only [List.length_cons] at hlen3
                  omega
                rcases ih r hrlen seg hseg2 with
                  ⟨pre, m2, post, hsplit, hsm2, hl2, hseq⟩
                refine ⟨m ++ pre, m2, post, ?_, hsm2, hl2, hseq⟩
                rw [he, hsplit]
                simp
          | none =>
              rw [hsm] at hseg
              rcases ih rest hlen2 seg hseg with
                ⟨pre, m2, post, hsplit, hsm2, hl2, hseq⟩
              exact ⟨w :: pre, m2, post, by rw [hsplit]; rfl, hsm2, hl2, hseq⟩

theorem redactWord_cons_not_overlap (s : RedactionSegment)
    (S : List RedactionSegment) (w : TWord)
    (h : overlapsSeg s w = false) :
    redactWord (s :: S) w = redactWord S w := by
  unfold redactWord
  rw [List.find?_cons_of_neg _ (by simp [h])]

theorem redactWord_covered_beep (s : RedactionSegment)
    (S : List RedactionSegment) (w : TWord)
    (hov : overlapsSeg s w = true) (hmode : s.mode = Mode.beep) :
    redactWord (s :: S) w = { w with text := "" } := by
  simp only [redactWord, List.find?, hov, hmode]

theorem redactWord_no_overlap (S : List RedactionSegment) (w : TWord)
    (h : ∀ s ∈ S, overlapsSeg s w = false) : redactWord S w = w := by
  unfold redactWord
  rw [List.find?_eq_none.mpr (fun s hs => by simp [h s hs])]

theorem map_norm_redact_eq (S2 : List RedactionSegment)
    (hbeepS : ∀ s ∈ S2, s.mode = Mode.beep) :
    ∀ (R : List TWord) (ph : List String),
      R.map (fun u => normalizeWord (redactWord S2 u).text) = ph →
      (∀ p ∈ ph, p ≠ "") →
      R.map (fun u => normalizeWord u.text) = ph := by
  intro R
  induction R with
  | nil => intro ph h hne; exact h
  | cons u R ih =>
      intro ph h hne
      cases ph with
      | nil => simp at h
      | cons p ph2 =>
          simp only [List.map_cons, List.cons.injEq] at h ⊢
          rcases h with ⟨h1, h2⟩
          refine ⟨?_, ih ph2 h2 (fun q hq => hne q (List.mem_cons_of_mem _ hq))⟩
          rcases hfind : S2.find? (fun s => overlapsSeg s u) with - | s
          · unfold redactWord at h1
            rw [hfind] at h1
            exact h1
          · exfalso
            have hmode := hbeepS s (List.mem_of_find?_eq_some hfind)
            unfold redactWord at h1
            rw [hfind] at h1
            simp only [hmode] at h1
            have hempty : p = "" := by
              rw [← h1]
              rfl
            exact hne p (List.mem_cons_self p ph2) hempty

theorem beep_scan_no_phrase (fz : String → String → Bool)
    (hfz : ∀ s, fz s s = true) (p0 : String) (ps : List String)
    (hp0 : p0 ≠ "") (hps : ∀ p ∈ ps, p ≠ "") :
    ∀ (fuel : Nat) (ws : List TWord), ws.length ≤ fuel →
      Chrono ws → WfWords ws →
      ¬ List.IsInfix (p0 :: ps)
        (transcribe (redactWords
          (localizeScanFuel fz p0 ps Mode.beep fuel ws) ws)) := by
  have hph : ∀ p ∈ p0 :: ps, p ≠ "" := by
    intro p hp
    rcases List.mem_cons.mp hp with rfl | hp2
    · exact hp0
    · exact hps p hp2
  intro fuel
  induction fuel with
  | zero =>
      intro ws hlen hc hwf hinf
      have hnil : ws = [] := List.length_eq_zero.mp (Nat.le_zero.mp hlen)
      subst hnil
      rcases hinf with ⟨s, t, hst⟩
      simp [transcribe, redactWords] at hst
  | succ fuel ih =>
      intro ws hlen hc hwf hinf
      cases ws with
      | nil =>
          rcases hinf with ⟨s, t, hst⟩
          simp [transcribe, redactWords] at hst
      | cons w rest =>
          have hlen2 : rest.length ≤ fuel := by
            simp only [List.length_cons] at hlen
            omega
          cases hsm : splitMatch fz (!ps.isEmpty) (p0 :: ps) (w :: rest) with
          | some mr =>
              rcases mr with ⟨m, r⟩
              rcases splitMatch_eq_append _ _ _ _ _ _ hsm with ⟨he, hl⟩
              simp only [List.length_cons] at hl
              have hmne : m ≠ [] := by
                intro h0
                rw [h0] at hl
                simp at hl
              have hS : localizeScanFuel fz p0 ps Mode.beep (fuel + 1) (w :: rest) =
                  segOf Mode.beep m :: localizeScanFuel fz p0 ps Mode.beep fuel r := by
                simp only [localizeScanFuel, hsm]
              rw [hS, he] at hinf
              have hcmr : Chrono (m ++ r) := he ▸ hc
              have hwfmr : WfWords (m ++ r) := he ▸ hwf
              have hcm : Chrono m := (List.pairwise_append.mp hcmr).1
              have hwfm : WfWords m :=
                fun u hu => hwfmr u (List.mem_append_left _ hu)
              have hred : redactWords
                  (segOf Mode.beep m :: localizeScanFuel fz p0 ps Mode.beep fuel r)
                  (m ++ r) =
                  m.map (fun u => { u with text := "" }) ++
                    redactWords (localizeScanFuel fz p0 ps Mode.beep fuel r) r := by
                unfold redactWords
                rw [List.map_append]
                congr 1
                · apply List.map_congr_left
                  intro u hu
                  exact redactWord_covered_beep _ _ _
                    (overlapsSeg_of_mem Mode.beep m hmne hcm hwfm u hu) rfl
                · apply List.map_congr_left
                  intro u hu
                  exact redactWord_cons_not_overlap _ _ _
                    (not_overlapsSeg_after Mode.beep m r hmne hcmr u hu)
              rw [hred] at hinf
              unfold transcribe at hinf
              rw [List.map_append] at hinf
              have hA : ∀ t2 ∈ (m.map (fun u => { u with text := "" })).map
                  (fun u => normalizeWord u.text), t2 = "" := by
                intro t2 ht2
                rw [List.map_map] at ht2
                rcases List.mem_map.mp ht2 with ⟨u, -, hval⟩
                rw [← hval]
                rfl
              have hinf2 := isInfix_right_of_blank _ _ _ _ hA hph hinf
              have hrlen : r.length ≤ fuel := by
                have hlen3 : (w :: rest).length = m.length + r.length := by
                  rw [he, List.length_append]
                simp only [List.length_cons] at hlen3
                omega
              exact ih r hrlen (chrono_append_right hcmr)
                (wf_append_right hwfmr) hinf2
          | none =>
              have hS : localizeScanFuel fz p0 ps Mode.beep (fuel + 1) (w :: rest) =
                  localizeScanFuel fz p0 ps Mode.beep fuel rest := by
                simp only [localizeScanFuel, hsm]
              rw [hS] at hinf
              have hw : redactWord
                  (localizeScanFuel fz p0 ps Mode.beep fuel rest) w = w := by
                apply redactWord_no_overlap
                intro s hs
                rcases localizeScanFuel_segments fz p0 ps Mode.beep fuel rest
                    hlen2 s hs with ⟨pre, m2, post, hsplit, hsm2, hl2, hseq⟩
                have hm2ne : m2 ≠ [] := by
                  intro h0
                  rw [h0] at hl2
                  simp at hl2
                have hbef : ∀ u ∈ m2, w.tEnd ≤ u.tStart := by
                  intro u hu
                  have humem : u ∈ rest := by
                    rw [hsplit]
                    exact List.mem_append_left _ (List.mem_append_right _ hu)
                  cases hc with | cons hrel _ => exact hrel u humem
                rw [hseq]
                exact not_overlapsSeg_before Mode.beep w m2 hm2ne hbef
              have hredcons : redactWords
                  (localizeScanFuel fz p0 ps Mode.beep fuel rest) (w :: rest) =
                  w :: redactWords (localizeScanFuel fz p0 ps Mode.beep fuel rest)
                    rest := by
                unfold redactWords
                rw [List.map_cons, hw]
              rw [hredcons] at hinf
              unfold transcribe at hinf
              rw [List.map_cons] at hinf
              rcases hinf with ⟨s, t, hst⟩
              cases s with
              | nil =>
                  rw [List.nil_append, List.cons_append] at hst
                  injection hst with h1 h2
                  have hbeepS : ∀ s2 ∈ localizeScanFuel fz p0 ps Mode.beep fuel rest,
                      s2.mode = Mode.beep :=
                    localizeScanFuel_mode fz p0 ps Mode.beep fuel rest
                  have hmap : rest.map (fun u => normalizeWord
                      (redactWord (localizeScanFuel fz p0 ps Mode.beep fuel rest)
                        u).text) = ps ++ t := by
                    unfold redactWords at h2
                    rw [List.map_map] at h2
                    exact h2.symm
                  rcases List.map_eq_append_iff.mp hmap with ⟨R1, R2, hrest, hR1, -⟩
                  have hR1n : R1.map (fun u => normalizeWord u.text) = ps :=
                    map_norm_redact_eq _ hbeepS R1 ps hR1 hps
                  have hm0 : (w :: R1).map (fun u => normalizeWord u.text) =
                      p0 :: ps := by
                    rw [List.map_cons, hR1n, ← h1]
                  have hsplit0 := splitMatch_of_texts fz hfz (!ps.isEmpty)
                    (p0 :: ps) (w :: R1) hm0
                  have hext := splitMatch_extend fz (!ps.isEmpty) (p0 :: ps)
                    (w :: R1) R2 hsplit0
                  rw [List.cons_append, ← hrest] at hext
                  rw [hsm] at hext
                  exact Option.noConfusion hext
              | cons x s2 =>
                  rw [List.cons_append, List.cons_append] at hst
                  injection hst with h1 h2
                  exact ih rest hlen2 (chrono_cons_tail hc) (wf_cons_tail hwf)
                    ⟨s2, t, h2⟩

theorem localizeScanFuel_pairwise (fz : String → String → Bool) (p0 : String)
    (ps : List String) (mode : Mode) :
    ∀ (fuel : Nat) (ws : List TWord), ws.length ≤ fuel →
      Chrono ws → WfWords ws →
      List.Pairwise (fun a b => a.tEnd ≤ b.tStart)
        (localizeScanFuel fz p0 ps mode fuel ws) := by
  intro fuel
  induction fuel with
  | zero => intro ws hlen hc hwf; exact List.Pairwise.nil
  | succ fuel ih =>
      intro ws hlen hc hwf
      cases ws with
      | nil => exact List.Pairwise.nil
      | cons w rest =>
          have hlen2 : rest.length ≤ fuel := by
            simp only [List.length_cons] at hlen
            omega
          cases hsm : splitMatch fz (!ps.isEmpty) (p0 :: ps) (w :: rest) with
          | some mr =>
              rcases mr with ⟨m, r⟩
              rcases splitMatch_eq_append _ _ _ _ _ _ hsm with ⟨he, hl⟩
              simp only [List.length_cons] at hl
              have hmne : m ≠ [] := by
                intro h0
                rw [h0] at hl
                simp at hl
              have hS : localizeScanFuel fz p0 ps mode (fuel + 1) (w :: rest) =
                  segOf mode m :: localizeScanFuel fz p0 ps mode fuel r := by
                simp only [localizeScanFuel, hsm]
              rw [hS]
              have hcmr : Chrono (m ++ r) := he ▸ hc
              have hwfmr : WfWords (m ++ r) := he ▸ hwf
              have hrlen : r.length ≤ fuel := by
                have hlen3 : (w :: rest).length = m.length + r.length := by
                  rw [he, List.length_append]
                simp only [List.length_cons] at hlen3
                omega
              refine List.Pairwise.cons ?_
                (ih r hrlen (chrono_append_right hcmr) (wf_append_right hwfmr))
              intro b hb
              rcases localizeScanFuel_segments fz p0 ps mode fuel r hrlen b hb
                with ⟨pre, m2, post, hsplit, -, hl2, hseq⟩
              have hm2ne : m2 ≠ [] := by
                intro h0
                rw [h0] at hl2
                simp at hl2
              cases m2 with
              | nil => exact absurd rfl hm2ne
              | cons x xs =>
                  have hxr : x ∈ r := by
                    rw [hsplit]
                    exact List.mem_append_left _
                      (List.mem_append_right _ (List.mem_cons_self x xs))
                  have hcross := (List.pairwise_append.mp hcmr).2.2
                  have hlastm : m.getLast hmne ∈ m := List.getLast_mem hmne
                  have h1 : (m.getLast hmne).tEnd ≤ x.tStart := hcross _ hlastm x hxr
                  rw [hseq, segOf_tStart, segOf_tEnd mode m hmne]
                  exact h1
          | none =>
              have hS : localizeScanFuel fz p0 ps mode (fuel + 1) (w :: rest) =
                  localizeScanFuel fz p0 ps mode fuel rest := by
                simp only [localizeScanFuel, hsm]
              rw [hS]
              exact ih rest hlen2 (chrono_cons_tail hc) (wf_cons_tail hwf)

theorem localizeScanFuel_single (fz fz2 : String → String → Bool)
    (p0 : String) (mode : Mode) :
    ∀ (fuel : Nat) (ws : List TWord),
      localizeScanFuel fz p0 [] mode fuel ws =
        localizeScanFuel fz2 p0 [] mode fuel ws := by
  intro fuel
  induction fuel with
  | zero => intro ws; rfl
  | succ fuel ih =>
      intro ws
      cases ws with
      | nil => rfl
      | cons w rest =>
          have hs : splitMatch fz (!(List.isEmpty ([] : List String))) [p0]
              (w :: rest) =
              splitMatch fz2 (!(List.isEmpty ([] : List String))) [p0]
                (w :: rest) := by
            simp [splitMatch, wordTest]
          simp only [localizeScanFuel]
          rw [hs]
          cases hsm : splitMatch fz2 (!(List.isEmpty ([] : List String))) [p0]
              (w :: rest) with
          | some mr =>
              rcases mr with ⟨m, r⟩
              simp only [ih]
          | none => simp only [ih]

theorem containsSeq_iff (ph : List String) :
    ∀ ts, containsSeq ph ts = true ↔ List.IsInfix ph ts := by
  intro ts
  induction ts with
  | nil =>
      rw [show containsSeq ph [] = ph.isEmpty from rfl, List.infix_nil]
      exact List.isEmpty_iff
  | cons t ts ih =>
      rw [show containsSeq ph (t :: ts) =
        (ph.isPrefixOf (t :: ts) || containsSeq ph ts) from rfl]
      rw [Bool.or_eq_true, List.isPrefixOf_iff_prefix, ih, List.infix_cons_iff]

theorem redactWords_none (segs : List RedactionSegment)
    (hmode : ∀ s ∈ segs, s.mode = Mode.none) (ws : List TWord) :
    redactWords segs ws = ws := by
  unfold redactWords
  have h : ∀ w ∈ ws, redactWord segs w = id w := by
    intro w hw
    cases hfind : segs.find? (fun s => overlapsSeg s w) with
    | none =>
        unfold redactWord
        rw [hfind]
        rfl
    | some s =>
        unfold redactWord
        rw [hfind]
        simp only [hmode s (List.mem_of_find?_eq_some hfind)]
        rfl
  rw [List.map_congr_left h, List.map_id]

theorem phraseWords_ne_empty (p : String) : ∀ t ∈ phraseWords p, t ≠ "" := by
  intro t ht
  unfold phraseWords at ht
  rcases List.mem_filter.mp ht with ⟨-, hbe⟩
  simpa using hbe

/-- C7: every segment the sliding-window localizer produces comes from a
contiguous matched span of the word sequence, with the segment's start
equal to the first matched word's start time, its end equal to the last
matched word's end time, and the requested mode; because the scan advances
past each matched span, on a chronological word sequence no two produced
segments overlap; and for a single-word phrase the match is exact — the
fuzzy comparator is irrelevant. -/
theorem localizer_sliding_window_sound (fz fz2 : String → String → Bool)
    (p0 : String) (ps : List String) (mode : Mode) (ws : List TWord)
    (hc : Chrono ws) (hwf : WfWords ws) :
    (∀ seg ∈ localizeScan fz p0 ps mode ws,
      ∃ pre m post, ws = pre ++ m ++ post ∧
        splitMatch fz (!ps.isEmpty) (p0 :: ps) m = some (m, []) ∧
        ∃ hm : m ≠ [],
          seg.tStart = (m.head hm).tStart ∧
          seg.tEnd = (m.getLast hm).tEnd ∧ seg.mode = mode) ∧
    List.Pairwise (fun a b => a.tEnd ≤ b.tStart)
      (localizeScan fz p0 ps mode ws) ∧
    localizeScan fz p0 [] mode ws = localizeScan fz2 p0 [] mode ws := by
  refine ⟨?_,
    localizeScanFuel_pairwise fz p0 ps mode ws.length ws (le_refl _) hc hwf,
    localizeScanFuel_single fz fz2 p0 mode ws.length ws⟩
  intro seg hseg
  rcases localizeScanFuel_segments fz p0 ps mode ws.length ws (le_refl _)
    seg hseg with ⟨pre, m, post, hsplit, hsm, hl, hseq⟩
  have hmne : m ≠ [] := by
    intro h0
    rw [h0] at hl
    simp at hl
  refine ⟨pre, m, post, hsplit, hsm, hmne, ?_, ?_, ?_⟩
  · rw [hseq]
    cases m with
    | nil => exact absurd rfl hmne
    | cons x xs => rw [segOf_tStart]; rfl
  · rw [hseq, segOf_tEnd mode m hmne]
  · rw [hseq]
    rfl

/-- Witness for C7 on a concrete chronological transcript: the produced
segments are pairwise non-overlapping. -/
theorem localizer_sliding_window_sound_witness :
    List.Pairwise (fun a b => a.tEnd ≤ b.tStart)
      (localizeScan (fun a b => a == b) "main" ["street"] Mode.beep
        [⟨"on", 0, 1⟩, ⟨"Main,", 1, 2⟩, ⟨"Street", 2, 3⟩, ⟨"ok", 3, 4⟩]) :=
  (localizer_sliding_window_sound (fun a b => a == b) (fun a b => a == b)
    "main" ["street"] Mode.beep
    [⟨"on", 0, 1⟩, ⟨"Main,", 1, 2⟩, ⟨"Street", 2, 3⟩, ⟨"ok", 3, 4⟩]
    (by decide) (by decide)).2.1

/-- C3: applying the beep-mode segments the localizer produced for a
sensitive phrase and re-transcribing never reproduces the phrase, so the
compliance check passes on the redacted audio; segments in the `none`
test-fixture mode leave the audio unchanged; and in general the compliance
check fails whenever some phrase of the original sensitive-phrase list is
still recognizable in a transcript. -/
theorem beep_roundtrip_compliance (fz : String → String → Bool)
    (hfz : ∀ s, fz s s = true) (p : String) (ws : List TWord)
    (hc : Chrono ws) (hwf : WfWords ws) :
    (phraseWords p ≠ [] →
      containsSeq (phraseWords p)
        (transcribe (redactWords (localizePhrase fz p Mode.beep ws) ws)) =
        false) ∧
    (complianceCheck [p]
      (transcribe (redactWords (localizePhrase fz p Mode.beep ws) ws)) =
      true) ∧
    (∀ segs, (∀ s ∈ segs, s.mode = Mode.none) →
      redactWords segs ws = ws) ∧
    (∀ (phrases transcript : List String),
      (∃ q ∈ phrases, phraseWords q ≠ [] ∧
        containsSeq (phraseWords q) transcript = true) →
      complianceCheck phrases transcript = false) := by
  have hkill : ∀ (p0 : String) (ps : List String),
      phraseWords p = p0 :: ps →
      containsSeq (p0 :: ps)
        (transcribe (redactWords (localizePhrase fz p Mode.beep ws) ws)) =
        false := by
    intro p0 ps hpw
    have hp0 : p0 ≠ "" :=
      phraseWords_ne_empty p p0 (hpw ▸ List.mem_cons_self p0 ps)
    have hps : ∀ q ∈ ps, q ≠ "" := fun q hq =>
      phraseWords_ne_empty p q (hpw ▸ List.mem_cons_of_mem p0 hq)
    have hloc : localizePhrase fz p Mode.beep ws =
        localizeScanFuel fz p0 ps Mode.beep ws.length ws := by
      unfold localizePhrase
      rw [hpw]
      rfl
    have hninf := beep_scan_no_phrase fz hfz p0 ps hp0 hps ws.length ws
      (le_refl _) hc hwf
    rw [hloc]
    cases hcs : containsSeq (p0 :: ps)
        (transcribe (redactWords
          (localizeScanFuel fz p0 ps Mode.beep ws.length ws) ws)) with
    | false => rfl
    | true => exact absurd ((containsSeq_iff _ _).mp hcs) hninf
  refine ⟨?_, ?_, fun segs hsegs => redactWords_none segs hsegs ws, ?_⟩
  · intro hne
    cases hpw : phraseWords p with
    | nil => exact absurd hpw hne
    | cons p0 ps => rw [← hpw]; rw [hpw]; exact hkill p0 ps hpw
  · unfold complianceCheck
    rw [show ([p].all (fun q =>
        match phraseWords q with
        | [] => true
        | p0 :: ps => !(containsSeq (p0 :: ps)
            (transcribe (redactWords (localizePhrase fz p Mode.beep ws) ws))))) =
      ((match phraseWords p with
        | [] => true
        | p0 :: ps => !(containsSeq (p0 :: ps)
            (transcribe (redactWords (localizePhrase fz p Mode.beep ws) ws)))) &&
        true) from rfl]
    rw [Bool.and_true]
    cases hpw : phraseWords p with
    | nil => rfl
    | cons p0 ps =>
        show (!containsSeq (p0 :: ps)
          (transcribe (redactWords (localizePhrase fz p Mode.beep ws) ws))) =
          true
        rw [hkill p0 ps hpw]
        rfl
  · rintro phrases transcript ⟨q, hq, hne, hcs⟩
    unfold complianceCheck
    rw [List.all_eq_false]
    refine ⟨q, hq, ?_⟩
    cases hpw : phraseWords q with
    | nil => exact absurd hpw hne
    | cons q0 qs =>
        rw [hpw] at hcs
        show ¬(!containsSeq (q0 :: qs) transcript) = true
        rw [hcs]
        simp

/-- Witness for C3 on the spec's scenario: beeping the localized
"123 Main Street" segment defeats re-transcription and passes compliance,
while the `none` no-op fixture leaves the phrase recognizable and fails
compliance. -/
theorem beep_roundtrip_compliance_witness :
    complianceCheck ["123 Main Street"]
      (transcribe (redactWords
        (localizePhrase (fun a b => a == b) "123 Main Street" Mode.beep
          [⟨"I", 0, 1/2⟩, ⟨"live", 1/2, 1⟩, ⟨"at", 1, 3/2⟩, ⟨"123", 3/2, 2⟩,
            ⟨"Main", 2, 5/2⟩, ⟨"Street,", 5/2, 3⟩])
        [⟨"I", 0, 1/2⟩, ⟨"live", 1/2, 1⟩, ⟨"at", 1, 3/2⟩, ⟨"123", 3/2, 2⟩,
          ⟨"Main", 2, 5/2⟩, ⟨"Street,", 5/2, 3⟩])) = true ∧
    complianceCheck ["123 Main Street"]
      (transcribe (redactWords [⟨3/2, 3, Mode.none⟩]
        [⟨"I", 0, 1/2⟩, ⟨"live", 1/2, 1⟩, ⟨"at", 1, 3/2⟩, ⟨"123", 3/2, 2⟩,
          ⟨"Main", 2, 5/2⟩, ⟨"Street,", 5/2, 3⟩])) = false := by
  refine ⟨(beep_roundtrip_compliance (fun a b => a == b)
      (fun s => by simp) "123 Main Street"
      [⟨"I", 0, 1/2⟩, ⟨"live", 1/2, 1⟩, ⟨"at", 1, 3/2⟩, ⟨"123", 3/2, 2⟩,
        ⟨"Main", 2, 5/2⟩, ⟨"Street,", 5/2, 3⟩]
      (by decide) (by decide)).2.1, ?_⟩
  rw [(beep_roundtrip_compliance (fun a b => a == b)
      (fun s => by simp) "123 Main Street"
      [⟨"I", 0, 1/2⟩, ⟨"live", 1/2, 1⟩, ⟨"at", 1, 3/2⟩, ⟨"123", 3/2, 2⟩,
        ⟨"Main", 2, 5/2⟩, ⟨"Street,", 5/2, 3⟩]
      (by decide) (by decide)).2.2.1 [⟨3/2, 3, Mode.none⟩] (by decide)]
  exact (beep_roundtrip_compliance (fun a b => a == b)
      (fun s => by simp) "123 Main Street"
      [⟨"I", 0, 1/2⟩, ⟨"live", 1/2, 1⟩, ⟨"at", 1, 3/2⟩, ⟨"123", 3/2, 2⟩,
        ⟨"Main", 2, 5/2⟩, ⟨"Street,", 5/2, 3⟩]
      (by decide) (by decide)).2.2.2 ["123 Main Street"] _
      ⟨"123 Main Street", by decide, by decide, by decide⟩

end WordsToShields

end WordsToShieldsDevelopment
